import Mathlib

/-
Verification of the n-gram Markov chain model in src/models/smoothed_n_gram.py
(class NGramMarkovChain).  The Python class is shallowly embedded below:

  - Python dicts (`transitions` and its inner count dicts) become association
    lists that preserve insertion order (a fresh key is appended at the end,
    exactly where a `defaultdict` places it);
  - the Python set `vocabulary` becomes a duplicate-free list of strings
    (membership is what the code uses; the list fixes one iteration order);
  - floating point arithmetic becomes exact rational arithmetic (ℚ);
  - the random source (`random.choice` / `random.choices`) becomes an explicit
    oracle: each draw is an index supplied from outside, so theorems quantify
    over every possible outcome of the random choices.
-/

namespace NGramChain

/-- Word characters of the tokenizer regex: alphanumeric or underscore
(ASCII reading of the Python word-character class). -/
def isWordChar (c : Char) : Bool := c.isAlphanum || c = '_'

/-- Splits a character stream into the maximal runs of word characters,
mirroring the regex findall of word runs in train.  The accumulator holds
the current run reversed. -/
def splitWordsAux : List Char → List Char → List String
  | [], acc => if acc.isEmpty then [] else [String.mk acc.reverse]
  | c :: cs, acc =>
    if isWordChar c then splitWordsAux cs (c :: acc)
    else if acc.isEmpty then splitWordsAux cs []
    else String.mk acc.reverse :: splitWordsAux cs []

/-- Tokenizer of train: lowercase the text, then extract the maximal
word-character runs. -/
def tokenize (text : String) : List String :=
  splitWordsAux (text.toList.map Char.toLower) []

/-- Inner table of the transitions dict: follower word to occurrence count,
in insertion order. -/
abbrev CountTable := List (String × ℕ)

/-- Lookup with default 0, mirroring word_counts.get(word, 0) and the
defaultdict int default. -/
def getCount : CountTable → String → ℕ
  | [], _ => 0
  | q :: rest, w => if q.1 = w then q.2 else getCount rest w

/-- Increment of the inner defaultdict: bump an existing key, or append the
fresh key at the end with count 1. -/
def incCount : CountTable → String → CountTable
  | [], w => [(w, 1)]
  | q :: rest, w => if q.1 = w then (q.1, q.2 + 1) :: rest else q :: incCount rest w

/-- Sum of the counts of one context, mirroring sum of word_counts values. -/
def totalCount (t : CountTable) : ℕ := (t.map Prod.snd).sum

/-- Outer transitions dict: context (n-gram, as a list of tokens) to its
follower count table, in insertion order. -/
abbrev Transitions := List (List String × CountTable)

/-- Key lookup in the transitions dict. -/
def lookupCtx : Transitions → List String → Option CountTable
  | [], _ => none
  | p :: rest, c => if p.1 = c then some p.2 else lookupCtx rest c

/-- The statement transitions[current_ngram][next_word] += 1: auto-vivifies a
missing context (appended at the end) and bumps the follower count. -/
def incTransition : Transitions → List String → String → Transitions
  | [], c, w => [(c, incCount [] w)]
  | p :: rest, c, w =>
    if p.1 = c then (p.1, incCount p.2 w) :: rest else p :: incTransition rest c w

/-- Count stored for (context c, follower w), 0 when absent. -/
def getTransCount (tr : Transitions) (c : List String) (w : String) : ℕ :=
  getCount ((lookupCtx tr c).getD []) w

/-- State of one NGramMarkovChain instance. -/
structure Model where
  n : ℕ
  alpha : ℚ
  transitions : Transitions
  starting_ngrams : List (List String)
  vocabulary : List String

/-- The constructor: empty transitions, starting n-grams and vocabulary. -/
def initModel (n : ℕ) (alpha : ℚ) : Model :=
  { n := n, alpha := alpha, transitions := [], starting_ngrams := [], vocabulary := [] }

/-- The statement vocabulary.update(words): set insertion of every token,
keeping the vocabulary duplicate-free. -/
def updateVocab (v : List String) (ws : List String) : List String :=
  ws.foldl (fun s w => if w ∈ s then s else s ++ [w]) v

/-- The helper get_ngrams: all contiguous windows of length n.  The range
bound words.length + 1 - n equals the Python len(words) - n + 1, and both
give the empty list when the text is shorter than n. -/
def getNgrams (n : ℕ) (words : List String) : List (List String) :=
  (List.range (words.length + 1 - n)).map (fun i => (words.drop i).take n)

/-- The train method.  The loop over range(len(ngrams) - 1) incrementing
transitions[ngrams[i]][words[i + n]] is rendered as a fold over the list
pairing each non-final n-gram with the token that follows it, which is
exactly (ngrams[i], words[i + n]) at position i. -/
def train (m : Model) (text : String) : Model :=
  let words := tokenize text
  let vocab := updateVocab m.vocabulary words
  if words.length < m.n + 1 then { m with vocabulary := vocab }
  else
    let ngrams := getNgrams m.n words
    { m with
        vocabulary := vocab
        starting_ngrams := m.starting_ngrams ++ [words.take m.n]
        transitions :=
          (ngrams.dropLast.zip (words.drop m.n)).foldl
            (fun tr pr => incTransition tr pr.1 pr.2) m.transitions }

/-- Condition under which train prints its too-short warning. -/
def trainWarning (m : Model) (text : String) : Bool :=
  (tokenize text).length < m.n + 1

/-- The slice l[-n:] of Python: the last n elements, or the whole list when
n = 0 (Python reads [-0:] as [0:]). -/
def lastSlice (l : List String) (n : ℕ) : List String :=
  if n = 0 then l else l.drop (l.length - n)

/-- One draw from the random source over a list: random.choice and the
element random.choices settles on are modelled as the element at an
oracle-supplied index, so every element can be the outcome. -/
def chooseL {α : Type} (l : List α) (r : ℕ) : Option α :=
  l.get? (r % l.length)

/-- The probability predict_next_word assigns to word w under the count
table wc of a seen context, in exact arithmetic:
(count + alpha) / (total_count + alpha * len(vocabulary)). -/
def predictProb (m : Model) (wc : CountTable) (w : String) : ℚ :=
  ((getCount wc w : ℚ) + m.alpha) /
    ((totalCount wc : ℚ) + m.alpha * (m.vocabulary.length : ℚ))

/-- Condition under which predict_next_word prints its short-context
warning (and then returns None). -/
def contextWarning (m : Model) (context : List String) : Bool :=
  context.length < m.n

/-- The predict_next_word method.  A short context yields none (the code
prints a warning and returns None); a long context is truncated to its last
n tokens; an unseen context falls back to the vocabulary, then the starting
n-grams, then none; a seen context samples a vocabulary word (the weighted
draw is modelled as an oracle-indexed pick from the vocabulary, the key
list of the probabilities dict). -/
def predictNextWord (m : Model) (context : List String) (r : ℕ) : Option String :=
  if context.length < m.n then none
  else
    let ctx := if m.n < context.length then lastSlice context m.n else context
    match lookupCtx m.transitions ctx with
    | some _ => chooseL m.vocabulary r
    | none =>
      if m.vocabulary ≠ [] then chooseL m.vocabulary r
      else if m.starting_ngrams ≠ [] then
        ((chooseL m.starting_ngrams r).getD []).getLast?
      else none

/-- Outcome of generate_sentence before rendering: one of the two sentinel
returns, or a token list to be joined with spaces. -/
inductive GenResult where
  | notTrained : GenResult
  | notTrainedProperly : GenResult
  | sentence : List String → GenResult
deriving DecidableEq

/-- The seed-padding while-loop of generate_sentence, with fuel: while the
sentence is shorter than n, append the token at index len(sentence) of an
oracle-chosen starting n-gram.  The defaults (empty list, empty string)
stand where Python would raise an IndexError; reachable states never hit
them. -/
def padSeedFuel (m : Model) (g : ℕ → ℕ) : ℕ → List String → List String
  | 0, s => s
  | k + 1, s =>
    if s.length < m.n then
      padSeedFuel m g k
        (s ++ [((chooseL m.starting_ngrams (g s.length)).getD []).getD s.length ""])
    else s

/-- Seed padding with exactly the fuel the while-loop consumes. -/
def padSeed (m : Model) (g : ℕ → ℕ) (s : List String) : List String :=
  padSeedFuel m g (m.n - s.length) s

/-- The extension for-loop of generate_sentence: range(max_length -
len(sentence)) iterations, each predicting from the last n tokens and
appending, stopping early when the predictor returns none. -/
def extendLoop (m : Model) (g : ℕ → ℕ) : ℕ → List String → List String
  | 0, s => s
  | k + 1, s =>
    match predictNextWord m (lastSlice s m.n) (g s.length) with
    | none => s
    | some w => extendLoop m g k (s ++ [w])

/-- The generate_sentence method up to final rendering. -/
def generateTokens (m : Model) (sw : Option (List String)) (ml : ℕ) (g : ℕ → ℕ) :
    GenResult :=
  if m.transitions = [] then .notTrained
  else if sw = none ∨ (sw.getD []).length < m.n then
    if m.starting_ngrams = [] then .notTrainedProperly
    else
      match sw with
      | none =>
        let s := (chooseL m.starting_ngrams (g 0)).getD []
        .sentence (extendLoop m g (ml - s.length) s)
      | some ws =>
        let s := padSeed m g ws
        .sentence (extendLoop m g (ml - s.length) s)
  else
    let ws := sw.getD []
    let s := if m.n < ws.length then lastSlice ws m.n else ws
    .sentence (extendLoop m g (ml - s.length) s)

/-- The generate_sentence method: sentinel strings for the two cold-start
cases, else the tokens joined by single spaces. -/
def generateSentence (m : Model) (sw : Option (List String)) (ml : ℕ) (g : ℕ → ℕ) :
    String :=
  match generateTokens m sw ml g with
  | .notTrained => "Model not trained yet."
  | .notTrainedProperly => "Model not trained properly."
  | .sentence s => String.intercalate " " s

/-- Whether a generation outcome is an actual sentence (not a sentinel). -/
def isSentence : GenResult → Bool
  | .sentence _ => true
  | _ => false

/-- The token list of a sentence outcome (empty for the sentinels). -/
def resultTokens : GenResult → List String
  | .sentence s => s
  | _ => []

/-- The model states reachable from the constructor by train calls. -/
inductive Reachable : Model → Prop where
  | init : ∀ n alpha, Reachable (initModel n alpha)
  | step : ∀ m text, Reachable m → Reachable (train m text)

/-- The worked example text of the specification. -/
def sampleText : String := "the cat sat. the cat ran."

/-- The model of the worked example: n = 2, alpha = 1, trained once on
sampleText. -/
def exampleModel : Model := train (initModel 2 1) sampleText

/-- The list of (context, follower) pairs whose counts one train call
increments, indexed as in the specification: for i below L - n, the n-gram
words[i : i + n] paired with the token words[i + n]. -/
def trainPairs (n : ℕ) (words : List String) : List (List String × String) :=
  (List.range (words.length - n)).map (fun i => ((words.drop i).take n, words.getD (i + n) ""))

/-- Number of occurrences of one (context, follower) pair in a pair list. -/
def countPair : List (List String × String) → List String × String → ℕ
  | [], _ => 0
  | p :: rest, q => (if p = q then 1 else 0) + countPair rest q

theorem chooseL_isSome {α : Type} (l : List α) (r : ℕ) (h : l ≠ []) :
    (chooseL l r).isSome = true := by
  have hlen : 0 < l.length := List.length_pos.mpr h
  have hmod : r % l.length < l.length := Nat.mod_lt _ hlen
  rw [chooseL, List.get?_eq_get hmod]
  rfl

theorem chooseL_mem {α : Type} (l : List α) (r : ℕ) (a : α) (h : chooseL l r = some a) :
    a ∈ l := by
  exact List.get?_mem h

theorem getCount_eq_zero (t : CountTable) (w : String) (h : w ∉ t.map Prod.fst) :
    getCount t w = 0 := by
  induction t with
  | nil => rfl
  | cons q rest ih =>
    simp only [List.map_cons, List.mem_cons, not_or] at h
    simp only [getCount]
    rw [if_neg (fun hq => h.1 hq.symm)]
    exact ih h.2

theorem mem_keys_incCount (t : CountTable) (v x : String)
    (h : x ∈ (incCount t v).map Prod.fst) : x ∈ t.map Prod.fst ∨ x = v := by
  induction t with
  | nil => simpa [incCount] using h
  | cons q rest ih =>
    simp only [incCount] at h
    by_cases hq : q.1 = v
    · rw [if_pos hq] at h
      simp only [List.map_cons, List.mem_cons] at h ⊢
      tauto
    · rw [if_neg hq] at h
      simp only [List.map_cons, List.mem_cons] at h ⊢
      rcases h with h | h
      · tauto
      · rcases ih h with h2 | h2 <;> tauto

theorem getCount_incCount (t : CountTable) (v w : String) :
    getCount (incCount t v) w = getCount t w + (if v = w then 1 else 0) := by
  induction t with
  | nil => by_cases hvw : v = w <;> simp [incCount, getCount, hvw]
  | cons q rest ih =>
    simp only [incCount]
    by_cases hq : q.1 = v
    · rw [if_pos hq]
      subst hq
      by_cases hw : q.1 = w
      · simp [getCount, hw]
      · simp [getCount, hw]
    · rw [if_neg hq]
      by_cases hw : q.1 = w
      · have hvw : ¬v = w := fun hvw => hq (hw.trans hvw.symm)
        simp [getCount, hw, hvw]
      · simp [getCount, hw, ih]

theorem lookupCtx_mem (tr : Transitions) (c : List String) (wc : CountTable)
    (h : lookupCtx tr c = some wc) : (c, wc) ∈ tr := by
  induction tr with
  | nil => simp [lookupCtx] at h
  | cons p rest ih =>
    simp only [lookupCtx] at h
    by_cases hp : p.1 = c
    · rw [if_pos hp] at h
      have h2 : p = (c, wc) := Prod.ext hp (Option.some_inj.mp h)
      rw [← h2]
      exact List.mem_cons_self _ _
    · rw [if_neg hp] at h
      exact List.mem_cons_of_mem _ (ih h)

theorem lookupCtx_incTransition_self (tr : Transitions) (c : List String) (v : String) :
    lookupCtx (incTransition tr c v) c = some (incCount ((lookupCtx tr c).getD []) v) := by
  induction tr with
  | nil => simp [incTransition, lookupCtx]
  | cons p rest ih =>
    simp only [incTransition]
    by_cases hp : p.1 = c
    · rw [if_pos hp]
      simp [lookupCtx, hp]
    · rw [if_neg hp]
      simp only [lookupCtx, if_neg hp]
      exact ih

theorem lookupCtx_incTransition_other (tr : Transitions) (c x : List String) (v : String)
    (hx : ¬c = x) : lookupCtx (incTransition tr c v) x = lookupCtx tr x := by
  induction tr with
  | nil =>
    simp only [incTransition, lookupCtx]
    rw [if_neg hx]
  | cons p rest ih =>
    simp only [incTransition]
    by_cases hp : p.1 = c
    · rw [if_pos hp]
      have hpx : ¬p.1 = x := fun h => hx (hp.symm.trans h)
      simp [lookupCtx, hpx]
    · rw [if_neg hp]
      simp only [lookupCtx]
      by_cases hpx : p.1 = x
      · rw [if_pos hpx, if_pos hpx]
      · rw [if_neg hpx, if_neg hpx, ih]

theorem getTransCount_incTransition (tr : Transitions) (c x : List String) (v w : String) :
    getTransCount (incTransition tr c v) x w
      = getTransCount tr x w + (if (c, v) = (x, w) then 1 else 0) := by
  by_cases hcx : c = x
  · subst hcx
    rw [getTransCount, lookupCtx_incTransition_self, Option.getD_some, getCount_incCount]
    by_cases hvw : v = w
    · rw [if_pos hvw, if_pos (by rw [hvw])]
      rfl
    · rw [if_neg hvw, if_neg (by simp [hvw])]
      rfl
  · rw [getTransCount, lookupCtx_incTransition_other tr c x v hcx,
      if_neg (by simp [hcx])]
    rfl

theorem getTransCount_foldl (ps : List (List String × String)) (tr : Transitions)
    (x : List String) (w : String) :
    getTransCount (ps.foldl (fun t pr => incTransition t pr.1 pr.2) tr) x w
      = getTransCount tr x w + countPair ps (x, w) := by
  induction ps generalizing tr with
  | nil => simp [countPair]
  | cons p rest ih =>
    simp only [List.foldl_cons, countPair]
    rw [ih, getTransCount_incTransition, Prod.mk.eta]
    omega

theorem mem_updateVocab_left : ∀ (ws v : List String) (x : String), x ∈ v →
    x ∈ updateVocab v ws
  | [], _, _, h => h
  | w :: rest, v, x, h => by
    show x ∈ updateVocab (if w ∈ v then v else v ++ [w]) rest
    apply mem_updateVocab_left rest
    by_cases hw : w ∈ v
    · rw [if_pos hw]
      exact h
    · rw [if_neg hw]
      exact List.mem_append_left _ h

theorem mem_updateVocab_right : ∀ (ws v : List String) (x : String), x ∈ ws →
    x ∈ updateVocab v ws
  | w :: rest, v, x, h => by
    show x ∈ updateVocab (if w ∈ v then v else v ++ [w]) rest
    rcases List.mem_cons.mp h with hx | hx
    · subst hx
      apply mem_updateVocab_left rest
      by_cases hw : x ∈ v
      · rw [if_pos hw]
        exact hw
      · rw [if_neg hw]
        exact List.mem_append_right _ (List.mem_singleton_self x)
    · exact mem_updateVocab_right rest _ x hx

theorem nodup_updateVocab : ∀ (ws v : List String), v.Nodup → (updateVocab v ws).Nodup
  | [], _, h => h
  | w :: rest, v, h => by
    show (updateVocab (if w ∈ v then v else v ++ [w]) rest).Nodup
    apply nodup_updateVocab rest
    by_cases hw : w ∈ v
    · rw [if_pos hw]
      exact h
    · rw [if_neg hw]
      simp [List.nodup_append, h, hw]

theorem updateVocab_ne_nil_left (ws v : List String) (hv : v ≠ []) :
    updateVocab v ws ≠ [] := by
  cases v with
  | nil => exact absurd rfl hv
  | cons x xs =>
    exact List.ne_nil_of_mem (mem_updateVocab_left ws _ x (List.mem_cons_self x xs))

theorem updateVocab_ne_nil_right (ws v : List String) (hws : ws ≠ []) :
    updateVocab v ws ≠ [] := by
  cases ws with
  | nil => exact absurd rfl hws
  | cons w rest =>
    exact List.ne_nil_of_mem (mem_updateVocab_right _ v w (List.mem_cons_self w rest))

/-- Well-formedness of a follower count table against a vocabulary: every
key is a vocabulary word with positive count, keys are distinct. -/
def TableOK (V : List String) (t : CountTable) : Prop :=
  (∀ q ∈ t, q.1 ∈ V ∧ 1 ≤ q.2) ∧ (t.map Prod.fst).Nodup

/-- Well-formedness of the transitions table against a vocabulary: every
stored context has a nonempty well-formed follower table, contexts are
distinct keys. -/
def TransOK (V : List String) (tr : Transitions) : Prop :=
  (∀ p ∈ tr, p.2 ≠ [] ∧ TableOK V p.2) ∧ (tr.map Prod.fst).Nodup

theorem tableOK_mono (V V2 : List String) (t : CountTable) (hV : ∀ x ∈ V, x ∈ V2)
    (h : TableOK V t) : TableOK V2 t :=
  ⟨fun q hq => ⟨hV _ (h.1 q hq).1, (h.1 q hq).2⟩, h.2⟩

theorem transOK_mono (V V2 : List String) (tr : Transitions) (hV : ∀ x ∈ V, x ∈ V2)
    (h : TransOK V tr) : TransOK V2 tr :=
  ⟨fun p hp => ⟨(h.1 p hp).1, tableOK_mono V V2 _ hV (h.1 p hp).2⟩, h.2⟩

theorem tableOK_incCount (V : List String) (t : CountTable) (v : String)
    (h : TableOK V t) (hv : v ∈ V) : TableOK V (incCount t v) ∧ incCount t v ≠ [] := by
  induction t with
  | nil =>
    refine ⟨⟨?_, ?_⟩, ?_⟩
    · intro q hq
      simp only [incCount, List.mem_singleton] at hq
      subst hq
      exact ⟨hv, le_refl 1⟩
    · simp [incCount]
    · simp [incCount]
  | cons q rest ih =>
    simp only [incCount]
    by_cases hq : q.1 = v
    · rw [if_pos hq]
      refine ⟨⟨?_, ?_⟩, by simp⟩
      · intro p hp
        rcases List.mem_cons.mp hp with hp | hp
        · subst hp
          exact ⟨(h.1 q (List.mem_cons_self _ _)).1, Nat.le_add_left 1 q.2⟩
        · exact h.1 p (List.mem_cons_of_mem _ hp)
      · simpa using h.2
    · rw [if_neg hq]
      have hrest : TableOK V rest :=
        ⟨fun p hp => h.1 p (List.mem_cons_of_mem _ hp), (List.nodup_cons.mp h.2).2⟩
      have hih := ih hrest
      refine ⟨⟨?_, ?_⟩, by simp⟩
      · intro p hp
        rcases List.mem_cons.mp hp with hp | hp
        · rw [hp]
          exact h.1 q (List.mem_cons_self _ _)
        · exact hih.1.1 p hp
      · rw [List.map_cons, List.nodup_cons]
        refine ⟨?_, hih.1.2⟩
        intro hmem
        rcases mem_keys_incCount rest v q.1 hmem with h2 | h2
        · exact (List.nodup_cons.mp h.2).1 h2
        · exact hq h2

theorem mem_keys_incTransition (tr : Transitions) (c : List String) (v : String)
    (x : List String) (h : x ∈ (incTransition tr c v).map Prod.fst) :
    x ∈ tr.map Prod.fst ∨ x = c := by
  induction tr with
  | nil => simpa [incTransition] using h
  | cons p rest ih =>
    simp only [incTransition] at h
    by_cases hp : p.1 = c
    · rw [if_pos hp] at h
      simp only [List.map_cons, List.mem_cons] at h ⊢
      tauto
    · rw [if_neg hp] at h
      simp only [List.map_cons, List.mem_cons] at h ⊢
      rcases h with h | h
      · tauto
      · rcases ih h with h2 | h2 <;> tauto

theorem transOK_incTransition (V : List String) (tr : Transitions) (c : List String)
    (v : String) (h : TransOK V tr) (hv : v ∈ V) : TransOK V (incTransition tr c v) := by
  induction tr with
  | nil =>
    refine ⟨?_, by simp [incTransition]⟩
    intro p hp
    simp only [incTransition, List.mem_singleton] at hp
    subst hp
    have := tableOK_incCount V [] v ⟨by simp, by simp⟩ hv
    exact ⟨this.2, this.1⟩
  | cons p rest ih =>
    simp only [incTransition]
    by_cases hp : p.1 = c
    · rw [if_pos hp]
      refine ⟨?_, by simpa using h.2⟩
      intro q hq
      rcases List.mem_cons.mp hq with hq | hq
      · subst hq
        have hpt := h.1 p (List.mem_cons_self _ _)
        have := tableOK_incCount V p.2 v hpt.2 hv
        exact ⟨this.2, this.1⟩
      · exact h.1 q (List.mem_cons_of_mem _ hq)
    · rw [if_neg hp]
      have hrest : TransOK V rest :=
        ⟨fun q hq => h.1 q (List.mem_cons_of_mem _ hq), (List.nodup_cons.mp h.2).2⟩
      have hih := ih hrest
      refine ⟨?_, ?_⟩
      · intro q hq
        rcases List.mem_cons.mp hq with hq | hq
        · rw [hq]
          exact h.1 p (List.mem_cons_self _ _)
        · exact hih.1 q hq
      · rw [List.map_cons, List.nodup_cons]
        refine ⟨?_, hih.2⟩
        intro hmem
        rcases mem_keys_incTransition rest c v p.1 hmem with h2 | h2
        · exact (List.nodup_cons.mp h.2).1 h2
        · exact hp h2

theorem transOK_foldl (V : List String) : ∀ (ps : List (List String × String))
    (tr : Transitions), TransOK V tr → (∀ pr ∈ ps, pr.2 ∈ V) →
    TransOK V (ps.foldl (fun t pr => incTransition t pr.1 pr.2) tr)
  | [], _, h, _ => h
  | p :: rest, tr, h, hps => by
    simp only [List.foldl_cons]
    exact transOK_foldl V rest _
      (transOK_incTransition V tr p.1 p.2 h (hps p (List.mem_cons_self _ _)))
      (fun pr hpr => hps pr (List.mem_cons_of_mem _ hpr))

/-- Invariant holding in every reachable model state. -/
structure Inv (m : Model) : Prop where
  vocab_nodup : m.vocabulary.Nodup
  start_len : ∀ s ∈ m.starting_ngrams, s.length = m.n
  start_vocab : m.starting_ngrams ≠ [] → m.vocabulary ≠ []
  trans_start : m.transitions ≠ [] → m.starting_ngrams ≠ []
  trans_ok : TransOK m.vocabulary m.transitions

theorem inv_init (n : ℕ) (alpha : ℚ) : Inv (initModel n alpha) := by
  refine ⟨?_, ?_, ?_, ?_, ?_⟩ <;> simp [initModel, TransOK]

theorem inv_train (m : Model) (text : String) (h : Inv m) : Inv (train m text) := by
  simp only [train]
  by_cases hlen : (tokenize text).length < m.n + 1
  · rw [if_pos hlen]
    exact ⟨nodup_updateVocab _ _ h.vocab_nodup,
           h.start_len,
           fun hs => updateVocab_ne_nil_left _ _ (h.start_vocab hs),
           h.trans_start,
           transOK_mono _ _ _ (fun x hx => mem_updateVocab_left _ _ _ hx) h.trans_ok⟩
  · rw [if_neg hlen]
    have hn : m.n + 1 ≤ (tokenize text).length := Nat.le_of_not_lt hlen
    have hwne : tokenize text ≠ [] := by
      intro hnil
      rw [hnil] at hn
      simp at hn
    refine ⟨nodup_updateVocab _ _ h.vocab_nodup, ?_, ?_, ?_, ?_⟩
    · intro s hs
      replace hs : s ∈ m.starting_ngrams ++ [(tokenize text).take m.n] := hs
      show s.length = m.n
      rcases List.mem_append.mp hs with hs | hs
      · exact h.start_len s hs
      · rw [List.mem_singleton.mp hs, List.length_take]
        omega
    · intro _
      exact updateVocab_ne_nil_right _ _ hwne
    · intro _
      show m.starting_ngrams ++ [(tokenize text).take m.n] ≠ []
      simp
    · apply transOK_foldl
      · exact transOK_mono _ _ _ (fun x hx => mem_updateVocab_left _ _ _ hx) h.trans_ok
      · intro pr hpr
        obtain ⟨a, b⟩ := pr
        have h2 := List.of_mem_zip hpr
        exact mem_updateVocab_right _ _ _ (List.mem_of_mem_drop h2.2)

theorem reachable_inv (m : Model) (h : Reachable m) : Inv m := by
  induction h with
  | init n alpha => exact inv_init n alpha
  | step m2 text _ ih => exact inv_train m2 text ih

theorem sum_map_add_nat (l : List String) (f g : String → ℕ) :
    (l.map (fun w => f w + g w)).sum = (l.map f).sum + (l.map g).sum := by
  induction l with
  | nil => rfl
  | cons x xs ih =>
    simp only [List.map_cons, List.sum_cons, ih]
    omega

theorem sum_ite_eq_zero_of_not_mem (l : List String) (k : String) (c : ℕ) (hk : k ∉ l) :
    (l.map (fun w => if k = w then c else 0)).sum = 0 := by
  induction l with
  | nil => rfl
  | cons x xs ih =>
    simp only [List.mem_cons, not_or] at hk
    simp only [List.map_cons, List.sum_cons, if_neg hk.1, ih hk.2]

theorem sum_ite_eq_of_mem (l : List String) (k : String) (c : ℕ) (hl : l.Nodup)
    (hk : k ∈ l) : (l.map (fun w => if k = w then c else 0)).sum = c := by
  induction l with
  | nil => simp at hk
  | cons x xs ih =>
    rcases List.mem_cons.mp hk with hx | hx
    · subst hx
      simp only [List.map_cons, List.sum_cons, if_pos rfl,
        sum_ite_eq_zero_of_not_mem xs k c (List.nodup_cons.mp hl).1]
      simp
    · have hxk : ¬k = x := by
        intro he
        exact (List.nodup_cons.mp hl).1 (he ▸ hx)
      simp only [List.map_cons, List.sum_cons, if_neg hxk,
        ih (List.nodup_cons.mp hl).2 hx, Nat.zero_add]

theorem sum_getCount (V : List String) : ∀ (t : CountTable), V.Nodup →
    (t.map Prod.fst).Nodup → (∀ x ∈ t.map Prod.fst, x ∈ V) →
    (V.map (fun w => getCount t w)).sum = totalCount t
  | [], _, _, _ => by
    simp [getCount, totalCount]
  | (k, c) :: rest, hV, ht, hsub => by
    have hknotin : k ∉ rest.map Prod.fst := (List.nodup_cons.mp ht).1
    have hkrest : getCount rest k = 0 := getCount_eq_zero rest k hknotin
    have hpt : ∀ w, getCount ((k, c) :: rest) w
        = getCount rest w + (if k = w then c else 0) := by
      intro w
      by_cases hw : k = w
      · subst hw
        simp [getCount, hkrest]
      · simp [getCount, hw]
    calc (V.map (fun w => getCount ((k, c) :: rest) w)).sum
        = (V.map (fun w => getCount rest w + (if k = w then c else 0))).sum := by
          simp only [hpt]
      _ = (V.map (fun w => getCount rest w)).sum
            + (V.map (fun w => if k = w then c else 0)).sum := sum_map_add_nat _ _ _
      _ = totalCount rest + c := by
          rw [sum_getCount V rest hV (List.nodup_cons.mp ht).2
              (fun x hx => hsub x (List.mem_cons_of_mem _ hx)),
            sum_ite_eq_of_mem V k c hV (hsub k (List.mem_cons_self _ _))]
      _ = totalCount ((k, c) :: rest) := by
          simp only [totalCount, List.map_cons, List.sum_cons]
          omega

theorem totalCount_pos (V : List String) (t : CountTable) (h : TableOK V t)
    (hne : t ≠ []) : 1 ≤ totalCount t := by
  cases t with
  | nil => exact absurd rfl hne
  | cons q rest =>
    have hq := (h.1 q (List.mem_cons_self _ _)).2
    simp only [totalCount, List.map_cons, List.sum_cons]
    omega

theorem sum_map_mul_rat (l : List String) (f : String → ℚ) (d : ℚ) :
    (l.map (fun w => f w * d)).sum = (l.map f).sum * d := by
  induction l with
  | nil => simp
  | cons x xs ih => simp [ih, add_mul]

theorem sum_map_addconst_rat (l : List String) (f : String → ℕ) (a : ℚ) :
    (l.map (fun w => (f w : ℚ) + a)).sum
      = ((l.map f).sum : ℚ) + (l.length : ℚ) * a := by
  induction l with
  | nil => simp
  | cons x xs ih =>
    simp only [List.map_cons, List.sum_cons, List.length_cons, ih]
    push_cast
    ring

/-- C1: for every reachable model with non-negative alpha and every context
recorded as a key in the transitions table, predict_next_word assigns each
word w the probability (count(w) + alpha) / (total + alpha * |vocabulary|),
where count defaults to 0 for unseen followers, and these probabilities sum
to exactly 1 over the vocabulary in exact rational arithmetic. -/
theorem predict_seen_probabilities (m : Model) (ctx : List String) (wc : CountTable)
    (w : String) (hm : Reachable m) (ha : 0 ≤ m.alpha)
    (hl : lookupCtx m.transitions ctx = some wc) :
    predictProb m wc w
        = ((getCount wc w : ℚ) + m.alpha)
          / ((totalCount wc : ℚ) + m.alpha * (m.vocabulary.length : ℚ))
    ∧ (m.vocabulary.map (fun x => predictProb m wc x)).sum = 1 := by
  have hinv := reachable_inv m hm
  have hmem := lookupCtx_mem _ _ _ hl
  have hok := hinv.trans_ok.1 (ctx, wc) hmem
  refine ⟨rfl, ?_⟩
  have htot : 1 ≤ totalCount wc := totalCount_pos _ _ hok.2 hok.1
  have hDpos : 0 < (totalCount wc : ℚ) + m.alpha * (m.vocabulary.length : ℚ) := by
    have h1 : (1 : ℚ) ≤ (totalCount wc : ℚ) := by exact_mod_cast htot
    have h2 : 0 ≤ m.alpha * (m.vocabulary.length : ℚ) :=
      mul_nonneg ha (Nat.cast_nonneg _)
    linarith
  have hDne : (totalCount wc : ℚ) + m.alpha * (m.vocabulary.length : ℚ) ≠ 0 :=
    ne_of_gt hDpos
  have hkeys : ∀ x ∈ wc.map Prod.fst, x ∈ m.vocabulary := by
    intro x hx
    rcases List.mem_map.mp hx with ⟨q, hq, hxe⟩
    rw [← hxe]
    exact (hok.2.1 q hq).1
  have hsum1 : (m.vocabulary.map (fun x => getCount wc x)).sum = totalCount wc :=
    sum_getCount m.vocabulary wc hinv.vocab_nodup hok.2.2 hkeys
  have habbrev : ∀ x, predictProb m wc x
      = ((getCount wc x : ℚ) + m.alpha)
        * ((totalCount wc : ℚ) + m.alpha * (m.vocabulary.length : ℚ))⁻¹ := by
    intro x
    rw [predictProb, div_eq_mul_inv]
  calc (m.vocabulary.map (fun x => predictProb m wc x)).sum
      = (m.vocabulary.map (fun x => ((getCount wc x : ℚ) + m.alpha)
          * ((totalCount wc : ℚ) + m.alpha * (m.vocabulary.length : ℚ))⁻¹)).sum := by
        simp only [habbrev]
    _ = (m.vocabulary.map (fun x => (getCount wc x : ℚ) + m.alpha)).sum
          * ((totalCount wc : ℚ) + m.alpha * (m.vocabulary.length : ℚ))⁻¹ :=
        sum_map_mul_rat _ _ _
    _ = (((m.vocabulary.map (fun x => getCount wc x)).sum : ℚ)
          + (m.vocabulary.length : ℚ) * m.alpha)
          * ((totalCount wc : ℚ) + m.alpha * (m.vocabulary.length : ℚ))⁻¹ := by
        rw [sum_map_addconst_rat]
    _ = ((totalCount wc : ℚ) + m.alpha * (m.vocabulary.length : ℚ))
          * ((totalCount wc : ℚ) + m.alpha * (m.vocabulary.length : ℚ))⁻¹ := by
        rw [hsum1]
        ring
    _ = 1 := mul_inv_cancel₀ hDne

/-- Witness for C1: the worked-example model, seen context (the, cat). -/
theorem predict_seen_probabilities_witness :
    predictProb exampleModel [("sat", 1), ("ran", 1)] "sat"
        = ((getCount [("sat", 1), ("ran", 1)] "sat" : ℚ) + exampleModel.alpha)
          / ((totalCount [("sat", 1), ("ran", 1)] : ℚ)
            + exampleModel.alpha * (exampleModel.vocabulary.length : ℚ))
    ∧ (exampleModel.vocabulary.map
        (fun x => predictProb exampleModel [("sat", 1), ("ran", 1)] x)).sum = 1 :=
  predict_seen_probabilities exampleModel ["the", "cat"] [("sat", 1), ("ran", 1)] "sat"
    (Reachable.step _ _ (Reachable.init 2 1))
    (by rw [show exampleModel.alpha = (1 : ℚ) from rfl]; exact zero_le_one)
    (by decide)

/-- C2 counterexample: the worked-example model has a non-empty vocabulary,
yet predict_next_word on the one-token context (sat) returns the absent
result none (the code prints a warning and returns None, the same value as
"no prediction possible"), refuting the claim for contexts shorter than n. -/
theorem predict_nonempty_vocab_absent_cex :
    exampleModel.vocabulary ≠ [] ∧ predictNextWord exampleModel ["sat"] 0 = none := by
  exact ⟨by decide, by decide⟩

/-- C2 amended: for every reachable model with a non-empty vocabulary and
every context of at least n tokens, predict_next_word never returns the
absent result, whether or not the context is a transitions key. -/
theorem predict_total_on_valid_context (m : Model) (context : List String) (r : ℕ)
    (_hm : Reachable m) (hv : m.vocabulary ≠ []) (hc : m.n ≤ context.length) :
    (predictNextWord m context r).isSome = true := by
  simp only [predictNextWord]
  rw [if_neg (Nat.not_lt.mpr hc)]
  split
  · exact chooseL_isSome _ _ hv
  · rw [if_pos hv]
    exact chooseL_isSome _ _ hv

/-- Witness for C2 amended: the worked-example model, a seen context. -/
theorem predict_total_on_valid_context_witness :
    (predictNextWord exampleModel ["the", "cat"] 0).isSome = true :=
  predict_total_on_valid_context exampleModel ["the", "cat"] 0
    (Reachable.step _ _ (Reachable.init 2 1)) (by decide) (by decide)

/-- C4 counterexample: a context shorter than n makes predict_next_word
return none, exactly the value it returns in its genuine "no prediction
possible" case (a fresh model with empty vocabulary and no starting
n-grams), so the usage error is not distinguishable from absent in the
returned value. -/
theorem predict_short_context_indistinguishable_cex :
    predictNextWord exampleModel ["the"] 0 = none
    ∧ predictNextWord (initModel 2 1) ["a", "b"] 0 = none := by
  exact ⟨by decide, by decide⟩

/-- C4 amended: for every model and every context of fewer than n tokens,
predict_next_word prints the short-context warning and returns none — the
same value as the absent result, not a distinguishable error value. -/
theorem predict_short_context_warns_and_none (m : Model) (context : List String)
    (r : ℕ) (h : context.length < m.n) :
    contextWarning m context = true ∧ predictNextWord m context r = none := by
  refine ⟨?_, ?_⟩
  · simp [contextWarning, h]
  · rw [predictNextWord, if_pos h]

/-- Witness for C4 amended: the worked-example model, context (the). -/
theorem predict_short_context_warns_and_none_witness :
    contextWarning exampleModel ["the"] = true
    ∧ predictNextWord exampleModel ["the"] 0 = none :=
  predict_short_context_warns_and_none exampleModel ["the"] 0 (by decide)

theorem zip_eq_trainPairs (n : ℕ) (words : List String) (h : n ≤ words.length) :
    (getNgrams n words).dropLast.zip (words.drop n) = trainPairs n words := by
  apply List.ext_getElem
  · simp only [getNgrams, trainPairs, List.length_zip, List.length_dropLast,
      List.length_drop, List.length_map, List.length_range]
    omega
  · intro i h1 h2
    have hi : i < words.length - n := by
      simpa [trainPairs] using h2
    have hin : i + n < words.length := by omega
    simp only [getNgrams, trainPairs, List.getElem_zip, List.getElem_dropLast,
      List.getElem_map, List.getElem_range, List.getElem_drop]
    refine Prod.ext rfl ?_
    rw [List.getD_eq_getElem?_getD, List.getElem?_eq_getElem hin]
    simp [Nat.add_comm]

/-- C5: a training call on a text of at least n + 1 tokens changes every
(context, follower) count by exactly the number of occurrences of that pair
among the L - n pairs (n-gram at i, token at i + n) for i below L - n; the
final n-gram (at position L - n) heads no pair and contributes no
transition. -/
theorem train_transition_increments (m : Model) (text : String) (c : List String)
    (w : String) (h : m.n + 1 ≤ (tokenize text).length) :
    getTransCount (train m text).transitions c w
      = getTransCount m.transitions c w
        + countPair (trainPairs m.n (tokenize text)) (c, w)
    ∧ (trainPairs m.n (tokenize text)).length = (tokenize text).length - m.n := by
  have hn : m.n ≤ (tokenize text).length := by omega
  constructor
  · have htr : (train m text).transitions
        = ((getNgrams m.n (tokenize text)).dropLast.zip ((tokenize text).drop m.n)).foldl
            (fun t pr => incTransition t pr.1 pr.2) m.transitions := by
      simp only [train]
      rw [if_neg (by omega)]
    rw [htr, zip_eq_trainPairs m.n (tokenize text) hn, getTransCount_foldl]
  · simp [trainPairs]

/-- Witness for C5: the worked example, pair ((the, cat), ran). -/
theorem train_transition_increments_witness :
    getTransCount (train (initModel 2 1) sampleText).transitions ["the", "cat"] "ran"
      = getTransCount (initModel 2 1).transitions ["the", "cat"] "ran"
        + countPair (trainPairs 2 (tokenize sampleText)) (["the", "cat"], "ran")
    ∧ (trainPairs 2 (tokenize sampleText)).length = (tokenize sampleText).length - 2 :=
  train_transition_increments (initModel 2 1) sampleText ["the", "cat"] "ran" (by decide)

/-- C6 counterexample: after training the worked example, the final n-gram
(cat, ran) is NOT a key of the transitions table — the code only creates a
key when it increments a follower count, and the last n-gram has no
follower — refuting the claimed entry (cat, ran) mapped to an empty table. -/
theorem train_example_final_ngram_absent_cex :
    lookupCtx exampleModel.transitions ["cat", "ran"] = none := by decide

/-- C6 amended: the worked example yields exactly the table
(the, cat) mapped to sat 1 and ran 1, (cat, sat) mapped to the 1,
(sat, the) mapped to cat 1 — with the final n-gram (cat, ran) absent —
and vocabulary exactly the four words the, cat, sat, ran. -/
theorem train_example_table_and_vocab :
    exampleModel.transitions =
      [(["the", "cat"], [("sat", 1), ("ran", 1)]),
       (["cat", "sat"], [("the", 1)]),
       (["sat", "the"], [("cat", 1)])]
    ∧ exampleModel.vocabulary = ["the", "cat", "sat", "ran"] := by
  exact ⟨by decide, by decide⟩

/-- C7: a training call on a text of fewer than n + 1 tokens prints the
warning and returns leaving transitions and starting n-grams unchanged,
while still adding every token of the call to the vocabulary. -/
theorem train_short_text_effects (m : Model) (text : String)
    (h : (tokenize text).length < m.n + 1) :
    trainWarning m text = true
    ∧ (train m text).transitions = m.transitions
    ∧ (train m text).starting_ngrams = m.starting_ngrams
    ∧ (train m text).vocabulary = updateVocab m.vocabulary (tokenize text)
    ∧ (tokenize text).all (fun w => decide (w ∈ (train m text).vocabulary)) = true := by
  have htrain : train m text
      = { m with vocabulary := updateVocab m.vocabulary (tokenize text) } := by
    simp only [train]
    rw [if_pos h]
  refine ⟨by simp [trainWarning, h], by rw [htrain], by rw [htrain], by rw [htrain], ?_⟩
  rw [htrain, List.all_eq_true]
  intro w hw
  simp only [decide_eq_true_eq]
  exact mem_updateVocab_right _ _ _ hw

/-- Witness for C7: a two-token text trained into a 3-gram model. -/
theorem train_short_text_effects_witness :
    trainWarning (initModel 3 1) "hi there" = true
    ∧ (train (initModel 3 1) "hi there").transitions = (initModel 3 1).transitions
    ∧ (train (initModel 3 1) "hi there").starting_ngrams
        = (initModel 3 1).starting_ngrams
    ∧ (train (initModel 3 1) "hi there").vocabulary
        = updateVocab (initModel 3 1).vocabulary (tokenize "hi there")
    ∧ (tokenize "hi there").all
        (fun w => decide (w ∈ (train (initModel 3 1) "hi there").vocabulary)) = true :=
  train_short_text_effects (initModel 3 1) "hi there" (by decide)

/-- C8: with an empty transitions table (in particular a freshly
constructed model), generate_sentence returns the "Model not trained yet."
sentinel string for every seed, length and random outcome. -/
theorem generate_untrained_sentinel (m : Model) (sw : Option (List String)) (ml : ℕ)
    (g : ℕ → ℕ) (h : m.transitions = []) :
    generateSentence m sw ml g = "Model not trained yet." := by
  rw [generateSentence]
  simp only [generateTokens]
  rw [if_pos h]

/-- Witness for C8: a freshly constructed model. -/
theorem generate_untrained_sentinel_witness :
    generateSentence (initModel 2 1) none 25 (fun _ => 0) = "Model not trained yet." :=
  generate_untrained_sentinel (initModel 2 1) none 25 (fun _ => 0) rfl

/-- C9: in every reachable model state, non-empty starting n-grams force a
non-empty vocabulary, so the unseen-context fallback of predict_next_word
always takes the vocabulary branch — the starting-n-grams branch (priority
(b)) can never execute. -/
theorem starting_nonempty_vocab_nonempty (m : Model) (ctx : List String) (r : ℕ)
    (hm : Reachable m) (hs : m.starting_ngrams ≠ []) (hc : m.n ≤ ctx.length)
    (hu : lookupCtx m.transitions
        (if m.n < ctx.length then lastSlice ctx m.n else ctx) = none) :
    m.vocabulary ≠ []
    ∧ predictNextWord m ctx r = chooseL m.vocabulary r := by
  have hv := (reachable_inv m hm).start_vocab hs
  refine ⟨hv, ?_⟩
  simp only [predictNextWord]
  rw [if_neg (Nat.not_lt.mpr hc), hu, if_pos hv]

/-- Witness for C9: the worked-example model, unseen context (zzz, qqq). -/
theorem starting_nonempty_vocab_nonempty_witness :
    exampleModel.vocabulary ≠ []
    ∧ predictNextWord exampleModel ["zzz", "qqq"] 0 = chooseL exampleModel.vocabulary 0 :=
  starting_nonempty_vocab_nonempty exampleModel ["zzz", "qqq"] 0
    (Reachable.step _ _ (Reachable.init 2 1)) (by decide) (by decide) (by decide)

/-- C10: in every reachable model state, every starting n-gram has exactly
n tokens, so the index len(sentence) < n used during seed padding in
generate_sentence is always within bounds of the chosen starting n-gram. -/
theorem starting_ngram_length_inv (m : Model) (s : List String) (i : ℕ)
    (hm : Reachable m) (hs : s ∈ m.starting_ngrams) (hi : i < m.n) :
    s.length = m.n ∧ i < s.length := by
  have hlen := (reachable_inv m hm).start_len s hs
  exact ⟨hlen, hlen ▸ hi⟩

/-- Witness for C10: the worked-example model, its starting n-gram, index 1. -/
theorem starting_ngram_length_inv_witness :
    (["the", "cat"] : List String).length = exampleModel.n
    ∧ 1 < (["the", "cat"] : List String).length :=
  starting_ngram_length_inv exampleModel ["the", "cat"] 1
    (Reachable.step _ _ (Reachable.init 2 1)) (by decide) (by decide)

theorem chooseL_getD_mem {α : Type} (l : List α) (r : ℕ) (d : α) (h : l ≠ []) :
    (chooseL l r).getD d ∈ l := by
  have hsome := chooseL_isSome l r h
  obtain ⟨a, ha⟩ := Option.isSome_iff_exists.mp hsome
  rw [ha, Option.getD_some]
  exact chooseL_mem l r a ha

theorem lastSlice_length (l : List String) (n : ℕ) (hn : n ≠ 0) (h : n ≤ l.length) :
    (lastSlice l n).length = n := by
  rw [lastSlice, if_neg hn, List.length_drop]
  omega

theorem extendLoop_length (m : Model) (g : ℕ → ℕ) : ∀ (k : ℕ) (s : List String),
    (extendLoop m g k s).length ≤ s.length + k
  | 0, _ => Nat.le_refl _
  | k + 1, s => by
    simp only [extendLoop]
    cases predictNextWord m (lastSlice s m.n) (g s.length) with
    | none =>
      show s.length ≤ s.length + (k + 1)
      omega
    | some w =>
      show (extendLoop m g k (s ++ [w])).length ≤ s.length + (k + 1)
      have hrec := extendLoop_length m g k (s ++ [w])
      simp only [List.length_append, List.length_singleton] at hrec
      omega

theorem padSeedFuel_length (m : Model) (g : ℕ → ℕ) : ∀ (k : ℕ) (s : List String),
    k = m.n - s.length → (padSeedFuel m g k s).length = max s.length m.n
  | 0, s, hk => by
    simp only [padSeedFuel]
    omega
  | k + 1, s, hk => by
    simp only [padSeedFuel]
    rw [if_pos (by omega)]
    have hrec := padSeedFuel_length m g k
      (s ++ [((chooseL m.starting_ngrams (g s.length)).getD []).getD s.length ""])
      (by simp only [List.length_append, List.length_singleton]; omega)
    simp only [List.length_append, List.length_singleton] at hrec
    rw [hrec]
    omega

/-- C3 counterexample: the worked-example model (trained, n = 2) with
max_length = 1 and no seed returns the two-token sentence "the cat",
exceeding the claimed bound of at most max_length tokens: the extension
loop runs range(max_length - len(sentence)) times, which is empty when the
n-token start already exceeds max_length, and the start is returned whole. -/
theorem generate_exceeds_max_length_cex :
    generateSentence exampleModel none 1 (fun _ => 0) = "the cat"
    ∧ 1 < (resultTokens (generateTokens exampleModel none 1 (fun _ => 0))).length := by
  exact ⟨by decide, by decide⟩

/-- C3 amended: for every reachable trained model (non-empty transitions,
n at least 1), every seed, every max_length and every outcome of the
random choices, generate_sentence produces a sentence (not a sentinel) of
at most max(max_length, n) tokens. -/
theorem generate_length_bound (m : Model) (sw : Option (List String)) (ml : ℕ)
    (g : ℕ → ℕ) (hm : Reachable m) (hn : 1 ≤ m.n) (ht : m.transitions ≠ []) :
    isSentence (generateTokens m sw ml g) = true
    ∧ (resultTokens (generateTokens m sw ml g)).length ≤ max ml m.n := by
  have hinv := reachable_inv m hm
  have hs : m.starting_ngrams ≠ [] := hinv.trans_start ht
  simp only [generateTokens]
  rw [if_neg ht]
  by_cases hcond : sw = none ∨ (sw.getD []).length < m.n
  · rw [if_pos hcond, if_neg hs]
    cases sw with
    | none =>
      have hmem : (chooseL m.starting_ngrams (g 0)).getD [] ∈ m.starting_ngrams :=
        chooseL_getD_mem _ _ _ hs
      have hslen : ((chooseL m.starting_ngrams (g 0)).getD []).length = m.n :=
        hinv.start_len _ hmem
      refine ⟨rfl, ?_⟩
      simp only [resultTokens]
      have hb := extendLoop_length m g
        (ml - ((chooseL m.starting_ngrams (g 0)).getD []).length)
        ((chooseL m.starting_ngrams (g 0)).getD [])
      omega
    | some ws =>
      have hws : ws.length < m.n := by simpa using hcond
      have hpad : (padSeed m g ws).length = max ws.length m.n :=
        padSeedFuel_length m g (m.n - ws.length) ws rfl
      refine ⟨rfl, ?_⟩
      simp only [resultTokens]
      have hb := extendLoop_length m g (ml - (padSeed m g ws).length) (padSeed m g ws)
      omega
  · rw [if_neg hcond]
    push_neg at hcond
    obtain ⟨hsw, hlen⟩ := hcond
    cases sw with
    | none => exact absurd rfl hsw
    | some ws =>
      have hlen2 : m.n ≤ ws.length := by simpa using hlen
      refine ⟨rfl, ?_⟩
      simp only [resultTokens, Option.getD_some]
      by_cases hgt : m.n < ws.length
      · rw [if_pos hgt]
        have hsl : (lastSlice ws m.n).length = m.n :=
          lastSlice_length ws m.n (by omega) (le_of_lt hgt)
        have hb := extendLoop_length m g (ml - (lastSlice ws m.n).length) (lastSlice ws m.n)
        omega
      · rw [if_neg hgt]
        have hws : ws.length = m.n := by omega
        have hb := extendLoop_length m g (ml - ws.length) ws
        omega

/-- Witness for C3 amended: the worked-example model, no seed, max_length 5. -/
theorem generate_length_bound_witness :
    isSentence (generateTokens exampleModel none 5 (fun _ => 0)) = true
    ∧ (resultTokens (generateTokens exampleModel none 5 (fun _ => 0))).length
        ≤ max 5 exampleModel.n :=
  generate_length_bound exampleModel none 5 (fun _ => 0)
    (Reachable.step _ _ (Reachable.init 2 1)) (by decide) (by decide)

end NGramChain
